import Mathlib

/-
Verification of `extract_metadata.py` (Seqera Platform workflow-metadata
extractor).  The development shallowly embeds the three pieces of logic the
script contains:

  * `parse_json`            — the dotted-path extractor (source lines 109-133),
  * `extract_workflow_data` — the tar-archive member selector (lines 91-106),
  * `main_run`              — the orchestration of `main` after the archive has
                              been downloaded (lines 136-203).

Python `None` / JSON `null` is `Json.null`; Python dicts are modelled as
insertion-ordered association lists with the operations `dictLookup` /
`dictInsert` mirroring `d.get(k)` and `d[k] = v` (a pre-existing key keeps its
position and gets the new value, a new key is appended at the end).  Exceptions
are modelled with `Except PyError`.
-/

set_option maxHeartbeats 1000000

/-- A JSON value as produced by Python's `json.load`.  Numeric payloads are
abstracted to `Int` (no claim depends on arithmetic on them); `Json.null` also
stands for Python's `None`. -/
inductive Json where
  | null : Json
  | bool : Bool → Json
  | num : Int → Json
  | str : String → Json
  | arr : List Json → Json
  | obj : List (String × Json) → Json

/-- The Python exceptions the modelled code can raise:
`AttributeError` (calling `.get` on a non-dict), `json.JSONDecodeError`
(invalid JSON in a tar member) and `ValueError` (missing required member). -/
inductive PyError where
  | attributeError : PyError
  | jsonDecodeError : PyError
  | valueError : PyError
deriving DecidableEq

/-- Test for `Json.null`, modelling Python's `value is None`. -/
def Json.isNull : Json → Bool
  | .null => true
  | _ => false

/-- Python `d.get(k)` on an association-list dict: the value at the first
entry whose key is `k` (keys are unique in every dict the script builds). -/
def dictLookup {α : Type} : List (String × α) → String → Option α
  | [], _ => none
  | (k', v) :: rest, k => if k' = k then some v else dictLookup rest k

/-- Python `d[k] = v`: if `k` is present its (first) entry keeps its position
and receives the new value, otherwise `(k, v)` is appended at the end.  This
is exactly CPython's insertion-order dict-assignment semantics. -/
def dictInsert {α : Type} : List (String × α) → String → α → List (String × α)
  | [], k, v => [(k, v)]
  | p :: rest, k, v => if p.1 = k then (k, v) :: rest else p :: dictInsert rest k v

/-- The key list of a dict, in insertion order (Python `list(d.keys())`). -/
def dictKeys {α : Type} (d : List (String × α)) : List String :=
  d.map Prod.fst

/-- Python `{**d1, **d2}`: start from `d1` and assign every entry of `d2` in
order, so `d2`'s values win on shared keys and its new keys are appended. -/
def mergeDicts {α : Type} (d1 d2 : List (String × α)) : List (String × α) :=
  d2.foldl (fun acc p => dictInsert acc p.1 p.2) d1

/-- Character-level worker for `splitDot`: `cur` is the (reversed) chunk being
accumulated, the result is the list of chunks between `'.'` separators. -/
def splitDotChars (cur : List Char) : List Char → List (List Char)
  | [] => [cur.reverse]
  | c :: cs => if c = '.' then cur.reverse :: splitDotChars [] cs else splitDotChars (c :: cur) cs

/-- Python `key.split(".")` (source line 125): split on every occurrence of
`'.'`, keeping empty chunks, so the result is always non-empty. -/
def splitDot (s : String) : List String :=
  (splitDotChars [] s.data).map (fun l => ⟨l⟩)

/-- Outcome of the inner `for part in key.split("."):` loop of `parse_json`
(source lines 125-130) for one key. -/
inductive WalkResult where
  | recorded : Json → WalkResult
  | skipped : WalkResult
  | error : WalkResult

/-- The inner loop of `parse_json` (lines 124-130): `value = value.get(part)`
then `if value is None: break`.  `d.get(part)` returns `None` both for a
missing key and for a key bound to `null`, hence the `getD Json.null`; the
`for`/`else` records the value only when no `break` occurred (`recorded`),
a `break` skips the key entirely (`skipped`), and `.get` on anything that is
not a dict raises `AttributeError` (`error`). -/
def walkParts : Json → List String → WalkResult
  | v, [] => .recorded v
  | Json.obj fields, p :: ps =>
      let v' := (dictLookup fields p).getD Json.null
      if v'.isNull then .skipped else walkParts v' ps
  | _, _ :: _ => .error

/-- One key's walk in `parse_json`: split the key on `.` and run the loop. -/
def walkKey (json_data : Json) (key : String) : WalkResult :=
  walkParts json_data (splitDot key)

/-- The `for key in keys_list:` loop of `parse_json` (lines 122-132) with the
accumulator `update_dict` explicit.  The `except (KeyError, TypeError)` branch
of the source (lines 131-132) is unreachable and therefore absent from the
model: `dict.get` with a hashable key raises neither `KeyError` nor
`TypeError`, and the `AttributeError` actually raised by `.get` on a non-dict
is not caught, so it propagates (modelled by `Except.error`). -/
def parse_json_go (json_data : Json) (acc : List (String × Json)) :
    List String → Except PyError (List (String × Json))
  | [] => .ok acc
  | k :: ks =>
    match walkKey json_data k with
    | .recorded v => parse_json_go json_data (dictInsert acc k v) ks
    | .skipped => parse_json_go json_data acc ks
    | .error => .error .attributeError

/-- `parse_json(json_data, keys_list)` (source lines 109-133). -/
def parse_json (json_data : Json) (keys_list : List String) :
    Except PyError (List (String × Json)) :=
  parse_json_go json_data [] keys_list

/-- Content of a tar-archive member, as seen by `json.load(tar.extractfile(member))`:
either it parses to a JSON value or `json.load` raises `JSONDecodeError`. -/
inductive MemberContent where
  | json : Json → MemberContent
  | invalid : MemberContent

/-- A member of the tar archive produced by `tw runs dump`: its `member.name`
and its content.  `tar.getmembers()` is the enumeration order of the list. -/
structure TarMember where
  name : String
  content : MemberContent

/-- The JSON value of a member content, if it is valid JSON. -/
def contentJson : MemberContent → Option Json
  | .json j => some j
  | .invalid => none

/-- The last member of the archive (in `tar.getmembers()` order) whose name
is `n`, if any. -/
def lastNamed (n : String) : List TarMember → Option TarMember
  | [] => none
  | m :: ms =>
    match lastNamed n ms with
    | some m' => some m'
    | none => if m.name = n then some m else none

/-- The `for member in tar.getmembers():` loop of `extract_workflow_data`
(source lines 103-105) with the accumulator `extracted_data` explicit: a
member whose name is among `file_names` has its content parsed as JSON and
stored under its name; invalid JSON raises `JSONDecodeError` (uncaught, so it
propagates); all other members are ignored. -/
def extract_go (file_names : List String) (acc : List (String × Json)) :
    List TarMember → Except PyError (List (String × Json))
  | [] => .ok acc
  | m :: ms =>
    if m.name ∈ file_names then
      match m.content with
      | .json j => extract_go file_names (dictInsert acc m.name j) ms
      | .invalid => .error .jsonDecodeError
    else extract_go file_names acc ms

/-- `extract_workflow_data(tar_file, *file_names)` (source lines 91-106),
with the archive abstracted to its member list. -/
def extract_workflow_data (members : List TarMember) (file_names : List String) :
    Except PyError (List (String × Json)) :=
  extract_go file_names [] members

/-- The two member names `main` requests from the archive (source line 147). -/
def main_file_names : List String :=
  ["workflow-load.json", "workflow.json"]

/-- `workflow_load_keys` (source lines 156-166). -/
def workflow_load_keys : List String :=
  ["cpuEfficiency", "memoryEfficiency", "cost", "readBytes", "writeBytes",
   "peakCpus", "peakMemory", "dateCreated", "lastUpdated"]

/-- `workflow_keys` (source lines 168-189). -/
def workflow_keys : List String :=
  ["status", "repository", "id", "submit", "start", "complete", "dateCreated",
   "lastUpdated", "runName", "projectName", "commitId", "sessionId", "userName",
   "commandLine", "params", "configFiles", "configText", "duration",
   "params.input", "params.outdir"]

/-- The data-processing part of `main` (source lines 146-200), from the
downloaded archive to the dictionary handed to `json.dump`.  An `Except.ok`
payload is the dictionary written to the output file; any `Except.error`
means the run terminates with an uncaught exception *before* `open(args.output,
"w")` is reached, i.e. without creating or modifying the output file.
`extracted_data.get(name)` returns `None` both when the member is absent and
when its JSON content is `null`, hence the `getD Json.null`; the `is None`
checks of line 152 become `isNull`, and the `ValueError` of line 153 is
`PyError.valueError`.  The merge `{**parse_json(workflow_load, ...),
**parse_json(workflow, ...)}` of lines 193-196 evaluates the two calls left to
right and is `mergeDicts` on their results. -/
def main_run (members : List TarMember) : Except PyError (List (String × Json)) :=
  match extract_workflow_data members main_file_names with
  | .error e => .error e
  | .ok extracted_data =>
    let workflow_load := (dictLookup extracted_data "workflow-load.json").getD Json.null
    let workflow := (dictLookup extracted_data "workflow.json").getD Json.null
    if workflow_load.isNull || workflow.isNull then
      .error .valueError
    else
      match parse_json workflow_load workflow_load_keys with
      | .error e => .error e
      | .ok d1 =>
        match parse_json workflow workflow_keys with
        | .error e => .error e
        | .ok d2 => .ok (mergeDicts d1 d2)

/-- Reference recomputation of what `parse_json` returns when no key's walk
raises: the keys of `keys_list` whose walk resolves to a non-null value, each
at its first occurrence (later duplicates are overwrites with the same value),
paired with the resolved value.  `seen` is the set of keys already in the
accumulator. -/
def buildDict (json_data : Json) (seen : List String) : List String → List (String × Json)
  | [] => []
  | k :: ks =>
    match walkKey json_data k with
    | .recorded v =>
      if k ∈ seen then buildDict json_data seen ks
      else (k, v) :: buildDict json_data (k :: seen) ks
    | _ => buildDict json_data seen ks

/-- Whether a walk completed and recorded a value. -/
def isRecorded : WalkResult → Bool
  | .recorded _ => true
  | _ => false

/-- Worker for `firstDedup`: drop every element already in `seen` or already
produced earlier in the list, keeping first occurrences in order. -/
def firstDedupAux (seen : List String) : List String → List String
  | [] => []
  | k :: ks => if k ∈ seen then firstDedupAux seen ks else k :: firstDedupAux (k :: seen) ks

/-- The list with later duplicates removed: each element once, at the
position of its first occurrence. -/
def firstDedup (l : List String) : List String :=
  firstDedupAux [] l

/-- Modelled from the spec: the load-metrics key list as the spec's §4.3
"Fixed key lists" spells it, for comparison with the code's list. -/
def specLoadKeys : List String :=
  ["cpuEfficiency", "memoryEfficiency", "cost", "readBytes", "writeBytes",
   "peakCpus", "peakMemory", "dateCreated", "lastUpdated"]

/-- Modelled from the spec: the workflow-descriptor key list as the spec's
§4.3 "Fixed key lists" spells it, for comparison with the code's list. -/
def specWorkflowKeys : List String :=
  ["status", "repository", "id", "submit", "start", "complete", "dateCreated",
   "lastUpdated", "runName", "projectName", "commitId", "sessionId", "userName",
   "commandLine", "params", "configFiles", "configText", "duration",
   "params.input", "params.outdir"]

/-- Looking a key up after an assignment: the assigned key now has the new
value, every other key is unaffected. -/
theorem dictLookup_dictInsert {α : Type} (d : List (String × α)) (k k' : String) (v : α) :
    dictLookup (dictInsert d k v) k' = if k = k' then some v else dictLookup d k' := by
  induction d with
  | nil => simp [dictInsert, dictLookup]
  | cons p rest ih =>
    obtain ⟨pk, pv⟩ := p
    by_cases h1 : pk = k
    · subst h1
      by_cases h2 : pk = k'
      · subst h2
        simp [dictInsert, dictLookup]
      · simp [dictInsert, dictLookup, h2]
    · have h1' : ¬ k = pk := fun h => h1 h.symm
      by_cases h2 : pk = k'
      · subst h2
        simp [dictInsert, dictLookup, h1, h1']
      · simp [dictInsert, dictLookup, h1, h2, ih]

/-- Assigning a key that is already present leaves the key list unchanged. -/
theorem dictKeys_dictInsert_mem {α : Type} (d : List (String × α)) (k : String) (v : α) :
    k ∈ dictKeys d → dictKeys (dictInsert d k v) = dictKeys d := by
  induction d with
  | nil => intro h; simp [dictKeys] at h
  | cons p rest ih =>
    intro h
    obtain ⟨pk, pv⟩ := p
    by_cases h1 : pk = k
    · subst h1
      simp [dictInsert, dictKeys]
    · have h1' : ¬ k = pk := fun hh => h1 hh.symm
      have h2 : k ∈ dictKeys rest := by
        rcases List.mem_cons.1 h with hh | hh
        · exact absurd hh h1'
        · exact hh
      simp [dictInsert, dictKeys, h1]
      have := ih h2
      simpa [dictKeys] using this

/-- Assigning a fresh key appends the new entry at the end. -/
theorem dictInsert_not_mem {α : Type} (d : List (String × α)) (k : String) (v : α) :
    k ∉ dictKeys d → dictInsert d k v = d ++ [(k, v)] := by
  induction d with
  | nil => intro _; simp [dictInsert]
  | cons p rest ih =>
    intro h
    obtain ⟨pk, pv⟩ := p
    have h1 : ¬ pk = k := by
      intro hk; exact h (by simp [dictKeys, hk])
    have h2 : k ∉ dictKeys rest := by
      intro hk; exact h (by simp [dictKeys] at hk ⊢; exact Or.inr hk)
    simp [dictInsert, h1, ih h2]

/-- The key list of a concatenation. -/
theorem dictKeys_append {α : Type} (d1 d2 : List (String × α)) :
    dictKeys (d1 ++ d2) = dictKeys d1 ++ dictKeys d2 := by
  simp [dictKeys]

/-- A key is in the key list exactly when lookup succeeds on it. -/
theorem mem_dictKeys {α : Type} (d : List (String × α)) (k : String) :
    k ∈ dictKeys d ↔ ∃ v, dictLookup d k = some v := by
  induction d with
  | nil => simp [dictKeys, dictLookup]
  | cons p rest ih =>
    obtain ⟨pk, pv⟩ := p
    by_cases h1 : pk = k
    · subst h1
      simp [dictKeys, dictLookup]
    · have h1' : ¬ k = pk := fun h => h1 h.symm
      rw [show dictKeys ((pk, pv) :: rest) = pk :: dictKeys rest from rfl,
        show dictLookup ((pk, pv) :: rest) k = dictLookup rest k from by
          simp [dictLookup, h1]]
      simp [List.mem_cons, h1', ih]

/-- A successful lookup exhibits an entry of the dict. -/
theorem dictLookup_mem {α : Type} (d : List (String × α)) (k : String) (v : α) :
    dictLookup d k = some v → (k, v) ∈ d := by
  induction d with
  | nil => intro h; simp [dictLookup] at h
  | cons p rest ih =>
    intro h
    obtain ⟨pk, pv⟩ := p
    by_cases h1 : pk = k
    · subst h1
      simp only [dictLookup, if_pos] at h
      have hv : pv = v := by injection h
      subst hv
      exact List.mem_cons_self _ _
    · simp only [dictLookup, h1, if_neg, not_false_iff] at h
      exact List.mem_cons_of_mem _ (ih h)

/-- Re-assigning a key to the value it already has is a no-op. -/
theorem dictInsert_lookup_self {α : Type} (d : List (String × α)) (k : String) (v : α) :
    dictLookup d k = some v → dictInsert d k v = d := by
  induction d with
  | nil => intro h; simp [dictLookup] at h
  | cons p rest ih =>
    intro h
    obtain ⟨pk, pv⟩ := p
    by_cases h1 : pk = k
    · subst h1
      simp only [dictLookup, if_pos] at h
      have hv : pv = v := by injection h
      subst hv
      simp [dictInsert]
    · simp only [dictLookup, h1, if_neg, not_false_iff] at h
      simp [dictInsert, h1, ih h]

/-- Unfolding one step of the dict merge. -/
theorem mergeDicts_cons {α : Type} (d1 : List (String × α)) (p : String × α)
    (d2 : List (String × α)) :
    mergeDicts d1 (p :: d2) = mergeDicts (dictInsert d1 p.1 p.2) d2 := rfl

/-- Merging does not touch keys that the second dict does not mention. -/
theorem dictLookup_mergeDicts_not_mem {α : Type} (d2 : List (String × α)) :
    ∀ (d1 : List (String × α)) (k : String), k ∉ dictKeys d2 →
      dictLookup (mergeDicts d1 d2) k = dictLookup d1 k := by
  induction d2 with
  | nil => intro d1 k _; rfl
  | cons p rest ih =>
    intro d1 k hk
    have h1 : ¬ p.1 = k := by
      intro h; exact hk (by simp [dictKeys, h])
    have h2 : k ∉ dictKeys rest := by
      intro h; exact hk (by simp [dictKeys] at h ⊢; exact Or.inr h)
    rw [mergeDicts_cons, ih _ k h2, dictLookup_dictInsert]
    simp [h1]

/-- On the keys of a duplicate-free second dict, the merge returns the second
dict's values (second argument wins). -/
theorem dictLookup_mergeDicts_mem {α : Type} (d2 : List (String × α)) :
    ∀ (d1 : List (String × α)) (k : String), (dictKeys d2).Nodup → k ∈ dictKeys d2 →
      dictLookup (mergeDicts d1 d2) k = dictLookup d2 k := by
  induction d2 with
  | nil => intro d1 k _ hk; simp [dictKeys] at hk
  | cons p rest ih =>
    intro d1 k hnd hk
    rw [show dictKeys (p :: rest) = p.1 :: dictKeys rest from rfl] at hnd hk
    have hnd1 : p.1 ∉ dictKeys rest := (List.nodup_cons.1 hnd).1
    have hnd2 : (dictKeys rest).Nodup := (List.nodup_cons.1 hnd).2
    by_cases h1 : p.1 = k
    · rw [mergeDicts_cons, dictLookup_mergeDicts_not_mem rest _ k (h1 ▸ hnd1),
        dictLookup_dictInsert]
      simp [dictLookup, h1]
    · have hk2 : k ∈ dictKeys rest := by
        rcases List.mem_cons.1 hk with h | h
        · exact absurd h.symm h1
        · exact h
      rw [mergeDicts_cons, ih _ k hnd2 hk2]
      simp [dictLookup, h1]

/-- When the second dict's keys are duplicate-free and disjoint from the
first dict's, the merge is plain concatenation (the union of the mappings,
first dict's entries first). -/
theorem mergeDicts_append {α : Type} (d2 : List (String × α)) :
    ∀ (d1 : List (String × α)), (dictKeys d2).Nodup →
      (∀ k, k ∈ dictKeys d2 → k ∉ dictKeys d1) →
      mergeDicts d1 d2 = d1 ++ d2 := by
  induction d2 with
  | nil => intro d1 _ _; simp [mergeDicts]
  | cons p rest ih =>
    intro d1 hnd hdisj
    have hp : p.1 ∉ dictKeys d1 := hdisj p.1 (by simp [dictKeys])
    rw [show dictKeys (p :: rest) = p.1 :: dictKeys rest from rfl] at hnd
    have hnd1 : p.1 ∉ dictKeys rest := (List.nodup_cons.1 hnd).1
    have hnd2 : (dictKeys rest).Nodup := (List.nodup_cons.1 hnd).2
    rw [mergeDicts_cons, dictInsert_not_mem d1 p.1 p.2 hp]
    have hdisj2 : ∀ k, k ∈ dictKeys rest → k ∉ dictKeys (d1 ++ [(p.1, p.2)]) := by
      intro k hk hmem
      rw [dictKeys_append] at hmem
      rcases List.mem_append.1 hmem with h | h
      · exact hdisj k (by
          rw [show dictKeys (p :: rest) = p.1 :: dictKeys rest from rfl]
          exact List.mem_cons_of_mem _ hk) h
      · have hkp : k = p.1 := by simpa [dictKeys] using h
        exact hnd1 (hkp ▸ hk)
    rw [ih _ hnd2 hdisj2]
    simp
/-- The reference dict only depends on the membership of `seen`. -/
theorem buildDict_congr_seen (T : Json) :
    ∀ (K : List String) (s1 s2 : List String), (∀ x, x ∈ s1 ↔ x ∈ s2) →
      buildDict T s1 K = buildDict T s2 K := by
  intro K
  induction K with
  | nil => intro s1 s2 _; rfl
  | cons k ks ih =>
    intro s1 s2 hmem
    cases hw : walkKey T k with
    | recorded v =>
      by_cases hk : k ∈ s1
      · simp only [buildDict, hw, if_pos hk, if_pos ((hmem k).1 hk)]
        exact ih s1 s2 hmem
      · have hk2 : k ∉ s2 := fun h => hk ((hmem k).2 h)
        simp only [buildDict, hw, if_neg hk, if_neg hk2]
        rw [ih (k :: s1) (k :: s2) (by intro x; simp [hmem x])]
    | skipped => simp only [buildDict, hw]; exact ih s1 s2 hmem
    | error => simp only [buildDict, hw]; exact ih s1 s2 hmem

/-- The reference dict's keys form a subsequence of the requested key list
(order preserved, each key at most once). -/
theorem buildDict_keys_sublist (T : Json) :
    ∀ (K : List String) (seen : List String),
      (dictKeys (buildDict T seen K)).Sublist K := by
  intro K
  induction K with
  | nil => intro seen; simp [buildDict, dictKeys]
  | cons k ks ih =>
    intro seen
    cases hw : walkKey T k with
    | recorded v =>
      by_cases hk : k ∈ seen
      · simp only [buildDict, hw, if_pos hk]
        exact (ih seen).cons k
      · simp only [buildDict, hw, if_neg hk]
        rw [show dictKeys ((k, v) :: buildDict T (k :: seen) ks)
          = k :: dictKeys (buildDict T (k :: seen) ks) from rfl]
        exact (ih (k :: seen)).cons₂ k
    | skipped => simp only [buildDict, hw]; exact (ih seen).cons k
    | error => simp only [buildDict, hw]; exact (ih seen).cons k

/-- No key of the reference dict was in the `seen` accumulator. -/
theorem buildDict_not_seen (T : Json) :
    ∀ (K : List String) (seen : List String) (k : String),
      k ∈ dictKeys (buildDict T seen K) → k ∉ seen := by
  intro K
  induction K with
  | nil => intro seen k h; simp [buildDict, dictKeys] at h
  | cons k0 ks ih =>
    intro seen k h
    cases hw : walkKey T k0 with
    | recorded v =>
      by_cases hk : k0 ∈ seen
      · simp only [buildDict, hw, if_pos hk] at h
        exact ih seen k h
      · simp only [buildDict, hw, if_neg hk] at h
        rw [show dictKeys ((k0, v) :: buildDict T (k0 :: seen) ks)
          = k0 :: dictKeys (buildDict T (k0 :: seen) ks) from rfl] at h
        rcases List.mem_cons.1 h with h | h
        · exact h ▸ hk
        · intro hmem
          exact ih (k0 :: seen) k h (List.mem_cons_of_mem _ hmem)
    | skipped => simp only [buildDict, hw] at h; exact ih seen k h
    | error => simp only [buildDict, hw] at h; exact ih seen k h

/-- The reference dict never repeats a key. -/
theorem buildDict_keys_nodup (T : Json) :
    ∀ (K : List String) (seen : List String),
      (dictKeys (buildDict T seen K)).Nodup := by
  intro K
  induction K with
  | nil => intro seen; simp [buildDict, dictKeys]
  | cons k ks ih =>
    intro seen
    cases hw : walkKey T k with
    | recorded v =>
      by_cases hk : k ∈ seen
      · simp only [buildDict, hw, if_pos hk]; exact ih seen
      · simp only [buildDict, hw, if_neg hk]
        rw [show dictKeys ((k, v) :: buildDict T (k :: seen) ks)
          = k :: dictKeys (buildDict T (k :: seen) ks) from rfl]
        refine List.nodup_cons.2 ⟨?_, ih (k :: seen)⟩
        intro hmem
        exact buildDict_not_seen T ks (k :: seen) k hmem (List.mem_cons_self _ _)
    | skipped => simp only [buildDict, hw]; exact ih seen
    | error => simp only [buildDict, hw]; exact ih seen

/-- The reference dict's key list, exactly: the requested keys whose walk
records a value, restricted to first occurrences, in request order. -/
theorem buildDict_keys_eq (T : Json) :
    ∀ (K seen : List String),
      dictKeys (buildDict T seen K)
        = firstDedupAux seen (K.filter (fun x => isRecorded (walkKey T x))) := by
  intro K
  induction K with
  | nil => intro seen; simp [buildDict, dictKeys, firstDedupAux]
  | cons k0 ks ih =>
    intro seen
    cases hw : walkKey T k0 with
    | recorded v =>
      have hfilter : List.filter (fun x => isRecorded (walkKey T x)) (k0 :: ks)
          = k0 :: List.filter (fun x => isRecorded (walkKey T x)) ks := by
        simp [List.filter_cons, hw, isRecorded]
      rw [hfilter]
      by_cases hk : k0 ∈ seen
      · simp only [buildDict, hw, if_pos hk, firstDedupAux]
        exact ih seen
      · simp only [buildDict, hw, if_neg hk, firstDedupAux]
        rw [show dictKeys ((k0, v) :: buildDict T (k0 :: seen) ks)
          = k0 :: dictKeys (buildDict T (k0 :: seen) ks) from rfl]
        rw [ih (k0 :: seen)]
    | skipped =>
      have hfilter : List.filter (fun x => isRecorded (walkKey T x)) (k0 :: ks)
          = List.filter (fun x => isRecorded (walkKey T x)) ks := by
        simp [List.filter_cons, hw, isRecorded]
      rw [hfilter]
      simp only [buildDict, hw]
      exact ih seen
    | error =>
      have hfilter : List.filter (fun x => isRecorded (walkKey T x)) (k0 :: ks)
          = List.filter (fun x => isRecorded (walkKey T x)) ks := by
        simp [List.filter_cons, hw, isRecorded]
      rw [hfilter]
      simp only [buildDict, hw]
      exact ih seen

/-- Looking up a not-yet-seen key in the reference dict: the walk's recorded
value when the key is requested and its walk resolves, nothing otherwise. -/
theorem buildDict_lookup (T : Json) :
    ∀ (K : List String) (seen : List String) (k : String), k ∉ seen →
      dictLookup (buildDict T seen K) k =
        (match walkKey T k with
          | .recorded v => if k ∈ K then some v else none
          | _ => none) := by
  intro K
  induction K with
  | nil =>
    intro seen k _
    cases hw : walkKey T k <;> simp [buildDict, dictLookup, hw]
  | cons k0 ks ih =>
    intro seen k hk
    by_cases hkk : k0 = k
    · subst hkk
      cases hw : walkKey T k0 with
      | recorded v =>
        simp only [buildDict, hw, if_neg hk]
        rw [show dictLookup ((k0, v) :: buildDict T (k0 :: seen) ks) k0
          = some v from by simp [dictLookup]]
        simp [hw]
      | skipped =>
        simp only [buildDict, hw]
        rw [ih seen k0 hk, hw]
      | error =>
        simp only [buildDict, hw]
        rw [ih seen k0 hk, hw]
    · have hkk' : ¬ k = k0 := fun h => hkk h.symm
      have hmemiff : (k ∈ k0 :: ks) ↔ (k ∈ ks) := by
        simp [List.mem_cons, hkk']
      cases hw : walkKey T k0 with
      | recorded v =>
        by_cases hk0 : k0 ∈ seen
        · simp only [buildDict, hw, if_pos hk0]
          rw [ih seen k hk]
          cases hwk : walkKey T k <;> simp [hmemiff]
        · simp only [buildDict, hw, if_neg hk0]
          rw [show dictLookup ((k0, v) :: buildDict T (k0 :: seen) ks) k
            = dictLookup (buildDict T (k0 :: seen) ks) k from by simp [dictLookup, hkk]]
          rw [ih (k0 :: seen) k (by simp [List.mem_cons, hk, hkk'])]
          cases hwk : walkKey T k <;> simp [hmemiff]
      | skipped =>
        simp only [buildDict, hw]
        rw [ih seen k hk]
        cases hwk : walkKey T k <;> simp [hmemiff]
      | error =>
        simp only [buildDict, hw]
        rw [ih seen k hk]
        cases hwk : walkKey T k <;> simp [hmemiff]
/-- If any requested key's walk meets a non-dict intermediate value, the whole
`parse_json` call raises `AttributeError`, whatever the accumulator. -/
theorem parse_json_go_error (T : Json) :
    ∀ (K : List String) (acc : List (String × Json)),
      (∃ k, k ∈ K ∧ walkKey T k = .error) →
      parse_json_go T acc K = .error .attributeError := by
  intro K
  induction K with
  | nil => intro acc h; rcases h with ⟨k, hk, _⟩; simp at hk
  | cons k0 ks ih =>
    intro acc h
    cases hw : walkKey T k0 with
    | recorded v =>
      simp only [parse_json_go, hw]
      refine ih _ ?_
      rcases h with ⟨k, hk, hke⟩
      rcases List.mem_cons.1 hk with h | h
      · rw [h] at hke; rw [hke] at hw; exact absurd hw (by simp)
      · exact ⟨k, h, hke⟩
    | skipped =>
      simp only [parse_json_go, hw]
      refine ih _ ?_
      rcases h with ⟨k, hk, hke⟩
      rcases List.mem_cons.1 hk with h | h
      · rw [h] at hke; rw [hke] at hw; exact absurd hw (by simp)
      · exact ⟨k, h, hke⟩
    | error => simp [parse_json_go, hw]

/-- When no requested key's walk raises, `parse_json`'s loop extends the
accumulator exactly by the reference dict over the not-yet-present keys (a
key already in the accumulator is re-assigned the very value it already has,
because both occurrences walk the same tree). -/
theorem parse_json_go_ok (T : Json) :
    ∀ (K : List String) (acc : List (String × Json)),
      (∀ p, p ∈ acc → walkKey T p.1 = WalkResult.recorded p.2) →
      (∀ k, k ∈ K → walkKey T k ≠ .error) →
      parse_json_go T acc K = .ok (acc ++ buildDict T (dictKeys acc) K) := by
  intro K
  induction K with
  | nil => intro acc _ _; simp [parse_json_go, buildDict]
  | cons k0 ks ih =>
    intro acc hinv hne
    cases hw : walkKey T k0 with
    | recorded v =>
      simp only [parse_json_go, hw]
      by_cases hk : k0 ∈ dictKeys acc
      · rcases (mem_dictKeys acc k0).1 hk with ⟨v', hv'⟩
        have hmem : (k0, v') ∈ acc := dictLookup_mem acc k0 v' hv'
        have : walkKey T k0 = WalkResult.recorded v' := hinv (k0, v') hmem
        have hvv : v' = v := by rw [this] at hw; injection hw
        subst hvv
        rw [dictInsert_lookup_self acc k0 v' hv']
        rw [ih acc hinv (fun k hkk => hne k (List.mem_cons_of_mem _ hkk))]
        simp only [buildDict, hw, if_pos hk]
      · rw [dictInsert_not_mem acc k0 v hk]
        have hinv2 : ∀ p, p ∈ acc ++ [(k0, v)] → walkKey T p.1 = WalkResult.recorded p.2 := by
          intro p hp
          rcases List.mem_append.1 hp with h | h
          · exact hinv p h
          · have : p = (k0, v) := by simpa using h
            rw [this]; exact hw
        rw [ih (acc ++ [(k0, v)]) hinv2 (fun k hkk => hne k (List.mem_cons_of_mem _ hkk))]
        rw [dictKeys_append]
        rw [buildDict_congr_seen T ks (dictKeys acc ++ dictKeys [(k0, v)]) (k0 :: dictKeys acc)
          (by intro x; simp [dictKeys, List.mem_cons, List.mem_append, or_comm])]
        simp only [buildDict, hw, if_neg hk]
        simp
    | skipped =>
      simp only [parse_json_go, hw]
      rw [ih acc hinv (fun k hkk => hne k (List.mem_cons_of_mem _ hkk))]
      simp only [buildDict, hw]
    | error => exact absurd hw (hne k0 (List.mem_cons_self _ _))

/-- A successful `parse_json` run means no key's walk raised. -/
theorem parse_json_go_ok_no_error (T : Json) (K : List String)
    (acc d : List (String × Json)) (h : parse_json_go T acc K = .ok d) :
    ∀ k, k ∈ K → walkKey T k ≠ .error := by
  intro k hk hke
  rw [parse_json_go_error T K acc ⟨k, hk, hke⟩] at h
  exact absurd h (by simp)

/-- Full characterisation of a successful `parse_json` call: it succeeds
exactly when no requested key's walk meets a non-dict intermediate, and the
result is the reference dict `buildDict`. -/
theorem parse_json_ok_iff (T : Json) (K : List String) (d : List (String × Json)) :
    parse_json T K = .ok d ↔
      ((∀ k, k ∈ K → walkKey T k ≠ .error) ∧ d = buildDict T [] K) := by
  constructor
  · intro h
    have hne := parse_json_go_ok_no_error T K [] d h
    refine ⟨hne, ?_⟩
    rw [parse_json] at h
    rw [parse_json_go_ok T K [] (by intro p hp; simp at hp) hne] at h
    have : [] ++ buildDict T (dictKeys ([] : List (String × Json))) K = d := by
      injection h
    simpa [dictKeys] using this.symm
  · intro ⟨hne, hd⟩
    rw [parse_json, parse_json_go_ok T K [] (by intro p hp; simp at hp) hne]
    simp [dictKeys, hd]
/-- A requested member with invalid JSON makes `extract_workflow_data` raise
`JSONDecodeError`, whatever the accumulator. -/
theorem extract_go_invalid (names : List String) :
    ∀ (members : List TarMember) (acc : List (String × Json)),
      (∃ m, m ∈ members ∧ m.name ∈ names ∧ m.content = MemberContent.invalid) →
      extract_go names acc members = .error .jsonDecodeError := by
  intro members
  induction members with
  | nil => intro acc h; rcases h with ⟨m, hm, _⟩; simp at hm
  | cons m0 ms ih =>
    intro acc h
    by_cases hn : m0.name ∈ names
    · cases hc : m0.content with
      | json j =>
        simp only [extract_go, if_pos hn, hc]
        refine ih _ ?_
        rcases h with ⟨m, hm, hmn, hmc⟩
        rcases List.mem_cons.1 hm with hh | hh
        · rw [hh] at hmc; rw [hmc] at hc; exact absurd hc (by simp)
        · exact ⟨m, hh, hmn, hmc⟩
      | invalid => simp [extract_go, if_pos hn, hc]
    · simp only [extract_go, if_neg hn]
      refine ih _ ?_
      rcases h with ⟨m, hm, hmn, hmc⟩
      rcases List.mem_cons.1 hm with hh | hh
      · rw [hh] at hmn; exact absurd hmn hn
      · exact ⟨m, hh, hmn, hmc⟩

/-- Every key of a successful selection either was already in the accumulator
or is a requested name carried by some member of the archive. -/
theorem extract_go_keys (names : List String) :
    ∀ (members : List TarMember) (acc d : List (String × Json)),
      extract_go names acc members = .ok d →
      ∀ n, n ∈ dictKeys d →
        n ∈ dictKeys acc ∨ (n ∈ names ∧ ∃ m, m ∈ members ∧ m.name = n) := by
  intro members
  induction members with
  | nil =>
    intro acc d h n hn
    have : acc = d := by rw [extract_go] at h; injection h
    exact Or.inl (this ▸ hn)
  | cons m0 ms ih =>
    intro acc d h n hn
    by_cases hmn : m0.name ∈ names
    · cases hc : m0.content with
      | json j =>
        rw [extract_go, if_pos hmn, hc] at h
        rcases ih (dictInsert acc m0.name j) d h n hn with hacc | ⟨hnn, m, hm, hmeq⟩
        · by_cases hk : m0.name ∈ dictKeys acc
          · rw [dictKeys_dictInsert_mem acc m0.name j hk] at hacc
            exact Or.inl hacc
          · rw [dictInsert_not_mem acc m0.name j hk, dictKeys_append] at hacc
            rcases List.mem_append.1 hacc with hh | hh
            · exact Or.inl hh
            · have : n = m0.name := by simpa [dictKeys] using hh
              exact Or.inr ⟨this ▸ hmn, m0, List.mem_cons_self _ _, this.symm⟩
        · exact Or.inr ⟨hnn, m, List.mem_cons_of_mem _ hm, hmeq⟩
      | invalid =>
        rw [extract_go, if_pos hmn, hc] at h
        exact absurd h (by simp)
    · rw [extract_go, if_neg hmn] at h
      rcases ih acc d h n hn with hacc | ⟨hnn, m, hm, hmeq⟩
      · exact Or.inl hacc
      · exact Or.inr ⟨hnn, m, List.mem_cons_of_mem _ hm, hmeq⟩

/-- Lookup after a successful selection: a requested name resolves to the
parsed content of the *last* archive member carrying that name, and to the
accumulator's binding when no member carries it. -/
theorem extract_go_lookup (names : List String) :
    ∀ (members : List TarMember) (acc d : List (String × Json)),
      extract_go names acc members = .ok d →
      ∀ n, n ∈ names →
        dictLookup d n =
          (match lastNamed n members with
            | some m => contentJson m.content
            | none => dictLookup acc n) := by
  intro members
  induction members with
  | nil =>
    intro acc d h n _
    have : acc = d := by rw [extract_go] at h; injection h
    subst this
    rfl
  | cons m0 ms ih =>
    intro acc d h n hn
    by_cases hmn : m0.name ∈ names
    · cases hc : m0.content with
      | json j =>
        rw [extract_go, if_pos hmn, hc] at h
        have := ih (dictInsert acc m0.name j) d h n hn
        cases hl : lastNamed n ms with
        | some m' =>
          rw [hl] at this
          simp only [lastNamed, hl]
          exact this
        | none =>
          rw [hl] at this
          simp only [lastNamed, hl]
          rw [this, dictLookup_dictInsert]
          by_cases hname : m0.name = n
          · simp [hname, hc, contentJson]
          · simp [hname]
      | invalid =>
        rw [extract_go, if_pos hmn, hc] at h
        exact absurd h (by simp)
    · rw [extract_go, if_neg hmn] at h
      have := ih acc d h n hn
      have hname : ¬ m0.name = n := fun hh => hmn (hh ▸ hn)
      cases hl : lastNamed n ms with
      | some m' =>
        rw [hl] at this
        simp only [lastNamed, hl]
        exact this
      | none =>
        rw [hl] at this
        simp only [lastNamed, hl, if_neg hname]
        exact this
/-- C1 counterexample: on the spec's own example `extract({"a": null}, ["a"])`
the code returns the empty mapping, not `{"a": null}` — a path resolving to a
genuinely-null value is omitted, so the result's keys are not "exactly K". -/
theorem C1_counterexample :
    parse_json (Json.obj [("a", Json.null)]) ["a"] = .ok []
      ∧ (Except.ok ([] : List (String × Json)) : Except PyError (List (String × Json)))
          ≠ .ok [("a", Json.null)] :=
  ⟨rfl, by simp⟩

/-- C1 (amended): when no requested key's walk meets a non-mapping
intermediate (so `parse_json` returns), the result's keys are exactly the
keys of K whose full walk resolves to a non-null value, each once, in K's
(first-occurrence) order, each mapped to its resolved value; keys whose walk
hits an absent segment or a null value are omitted rather than mapped to
null. -/
theorem C1_amended (T : Json) (K : List String) (d : List (String × Json))
    (h : parse_json T K = .ok d) :
    (dictKeys d).Sublist K ∧ (dictKeys d).Nodup ∧
      ∀ k, dictLookup d k =
        (match walkKey T k with
          | .recorded v => if k ∈ K then some v else none
          | _ => none) := by
  obtain ⟨_, hd⟩ := (parse_json_ok_iff T K d).1 h
  subst hd
  exact ⟨buildDict_keys_sublist T K [], buildDict_keys_nodup T K [],
    fun k => buildDict_lookup T K [] k (by simp)⟩

/-- Witness for C1 (amended) at a concrete tree and key list. -/
theorem C1_amended_witness :
    parse_json (Json.obj [("a", Json.num 1), ("b", Json.null)]) ["a", "b"]
        = .ok [("a", Json.num 1)]
      ∧ dictLookup [("a", Json.num 1)] "b"
        = (match walkKey (Json.obj [("a", Json.num 1), ("b", Json.null)]) "b" with
            | .recorded v => if "b" ∈ ["a", "b"] then some v else none
            | _ => none) :=
  ⟨rfl, (C1_amended (Json.obj [("a", Json.num 1), ("b", Json.null)]) ["a", "b"]
    [("a", Json.num 1)] rfl).2.2 "b"⟩

/-- C2: evaluating the code at the claim's own example `extract({"a": 5},
["a.b"])` raises an uncaught `AttributeError` (`.get` on the int `5`), instead
of the claimed `{"a.b": null}`: the `except (KeyError, TypeError)` branch
catches the wrong exception types and is unreachable. -/
theorem C2_nonmapping_raises :
    parse_json (Json.obj [("a", Json.num 5)]) ["a.b"] = .error .attributeError
      ∧ (Except.error PyError.attributeError : Except PyError (List (String × Json)))
          ≠ .ok [("a.b", Json.null)] :=
  ⟨rfl, by simp⟩

/-- C3: if either required member is absent from the selector's result, `main`
raises the terminal `ValueError` of source line 153, and consequently never
reaches the `open(args.output, "w")` of line 199 — no `.ok` payload (the dict
handed to `json.dump`) is ever produced, so the output file is not created or
modified. -/
theorem C3_missing_member_terminal (members : List TarMember)
    (ed : List (String × Json))
    (h : extract_workflow_data members main_file_names = .ok ed)
    (habs : dictLookup ed "workflow-load.json" = none
        ∨ dictLookup ed "workflow.json" = none) :
    main_run members = .error .valueError ∧ ∀ out, main_run members ≠ .ok out := by
  have hrun : main_run members = .error .valueError := by
    rcases habs with h1 | h1 <;> simp [main_run, h, h1, Json.isNull]
  refine ⟨hrun, fun out hout => ?_⟩
  rw [hrun] at hout
  exact absurd hout (by simp)

/-- Witness for C3 on the empty archive. -/
theorem C3_missing_member_terminal_witness :
    extract_workflow_data [] main_file_names = .ok []
      ∧ main_run [] = .error .valueError :=
  ⟨rfl, (C3_missing_member_terminal [] [] rfl (Or.inl rfl)).1⟩

/-- C4: merging the two extraction results as `main` does (`{**d1, **d2}`,
load-metrics first): with disjoint key lists the merge is the union of the two
mappings (concatenation of the entry lists), and on any key present in both
results the second (workflow-descriptor) mapping's value wins. -/
theorem C4_merge (T1 T2 : Json) (K1 K2 : List String) (d1 d2 : List (String × Json))
    (h1 : parse_json T1 K1 = .ok d1) (h2 : parse_json T2 K2 = .ok d2) :
    ((∀ k, k ∈ K1 → k ∉ K2) → mergeDicts d1 d2 = d1 ++ d2)
    ∧ (∀ k, k ∈ dictKeys d1 → k ∈ dictKeys d2 →
        dictLookup (mergeDicts d1 d2) k = dictLookup d2 k) := by
  obtain ⟨_, hd1⟩ := (parse_json_ok_iff T1 K1 d1).1 h1
  obtain ⟨_, hd2⟩ := (parse_json_ok_iff T2 K2 d2).1 h2
  have hn2 : (dictKeys d2).Nodup := by
    rw [hd2]; exact buildDict_keys_nodup T2 K2 []
  constructor
  · intro hdisj
    refine mergeDicts_append d2 d1 hn2 ?_
    intro k hk2 hk1
    have hkK2 : k ∈ K2 := (buildDict_keys_sublist T2 K2 []).subset (hd2 ▸ hk2)
    have hkK1 : k ∈ K1 := (buildDict_keys_sublist T1 K1 []).subset (hd1 ▸ hk1)
    exact hdisj k hkK1 hkK2
  · intro k _ hk2
    exact dictLookup_mergeDicts_mem d2 d1 k hn2 hk2

/-- Witness for C4 on two tiny disjoint extractions. -/
theorem C4_merge_witness :
    parse_json (Json.obj [("x", Json.num 1)]) ["x"] = .ok [("x", Json.num 1)]
      ∧ parse_json (Json.obj [("y", Json.num 2)]) ["y"] = .ok [("y", Json.num 2)]
      ∧ mergeDicts [("x", Json.num 1)] [("y", Json.num 2)]
          = [("x", Json.num 1)] ++ [("y", Json.num 2)] :=
  ⟨rfl, rfl, (C4_merge (Json.obj [("x", Json.num 1)]) (Json.obj [("y", Json.num 2)])
    ["x"] ["y"] [("x", Json.num 1)] [("y", Json.num 2)] rfl rfl).1 (by decide)⟩

/-- C5 counterexample: with the duplicated key list `["a", "a"]` on the empty
tree the result does not contain the key at all (both walks stop on an absent
segment), refuting "the result contains that key once". -/
theorem C5_counterexample :
    parse_json (Json.obj []) ["a", "a"] = .ok []
      ∧ "a" ∉ dictKeys ([] : List (String × Json)) :=
  ⟨rfl, by simp [dictKeys]⟩

/-- C5 (amended): when a dotted-path string occurs more than once in the key
list and `parse_json` returns, the result contains that key at most once; it
is present (with the walk's resolved value, which the later occurrence
re-writes unchanged over the earlier one) exactly when its walk resolves to a
non-null value, and absent otherwise; and the result's key list is exactly
the recorded requested keys, each at the position of its first occurrence,
in input order (the later duplicate neither adds a key nor moves one). -/
theorem C5_amended (T : Json) (K : List String) (k : String) (d : List (String × Json))
    (hdup : 2 ≤ K.count k) (h : parse_json T K = .ok d) :
    (dictKeys d).count k ≤ 1
    ∧ (∀ v, walkKey T k = .recorded v → dictLookup d k = some v)
    ∧ ((∀ v, walkKey T k ≠ .recorded v) → k ∉ dictKeys d)
    ∧ dictKeys d = firstDedup (K.filter (fun x => isRecorded (walkKey T x))) := by
  obtain ⟨_, hd⟩ := (parse_json_ok_iff T K d).1 h
  have hkK : k ∈ K := by
    by_contra hk
    rw [List.count_eq_zero_of_not_mem hk] at hdup
    omega
  subst hd
  refine ⟨List.nodup_iff_count_le_one.1 (buildDict_keys_nodup T K []) k, ?_, ?_, ?_⟩
  · intro v hv
    rw [buildDict_lookup T K [] k (by simp), hv]
    simp [hkK]
  · intro hnv hmem
    rcases (mem_dictKeys _ k).1 hmem with ⟨v, hv⟩
    rw [buildDict_lookup T K [] k (by simp)] at hv
    cases hw : walkKey T k with
    | recorded v' => exact hnv v' hw
    | skipped => rw [hw] at hv; simp at hv
    | error => rw [hw] at hv; simp at hv
  · exact buildDict_keys_eq T K []

/-- Witness for C5 (amended) on a genuinely duplicated key list: the
duplicated key keeps its first-occurrence position and value, and the
result's key order is the first-occurrence order of the recorded keys. -/
theorem C5_amended_witness :
    2 ≤ (["a", "b", "a"] : List String).count "a"
      ∧ parse_json (Json.obj [("a", Json.num 3), ("b", Json.num 4)]) ["a", "b", "a"]
          = .ok [("a", Json.num 3), ("b", Json.num 4)]
      ∧ dictLookup [("a", Json.num 3), ("b", Json.num 4)] "a" = some (Json.num 3)
      ∧ dictKeys [("a", Json.num 3), ("b", Json.num 4)]
          = firstDedup ((["a", "b", "a"] : List String).filter
              (fun x => isRecorded
                (walkKey (Json.obj [("a", Json.num 3), ("b", Json.num 4)]) x))) :=
  ⟨by decide, rfl,
   (C5_amended (Json.obj [("a", Json.num 3), ("b", Json.num 4)]) ["a", "b", "a"] "a"
     [("a", Json.num 3), ("b", Json.num 4)] (by decide) rfl).2.1 (Json.num 3) rfl,
   (C5_amended (Json.obj [("a", Json.num 3), ("b", Json.num 4)]) ["a", "b", "a"] "a"
     [("a", Json.num 3), ("b", Json.num 4)] (by decide) rfl).2.2.2⟩

/-- C6: a successful selection's keys are exactly drawn from the requested
names that some archive member carries; a requested name carried by no member
is simply absent from the result, with no error raised for it. -/
theorem C6_selector (members : List TarMember) (names : List String)
    (ed : List (String × Json)) (h : extract_workflow_data members names = .ok ed) :
    (∀ n, n ∈ dictKeys ed → n ∈ names ∧ ∃ m, m ∈ members ∧ m.name = n)
    ∧ (∀ n, (∀ m, m ∈ members → m.name ≠ n) → n ∉ dictKeys ed) := by
  constructor
  · intro n hn
    rcases extract_go_keys names members [] ed h n hn with hacc | hh
    · simp [dictKeys] at hacc
    · exact hh
  · intro n hnone hn
    rcases extract_go_keys names members [] ed h n hn with hacc | ⟨_, m, hm, hmeq⟩
    · simp [dictKeys] at hacc
    · exact hnone m hm hmeq

/-- Witness for C6: requesting the absent name "g" yields no entry and no
error. -/
theorem C6_selector_witness :
    extract_workflow_data [⟨"f", MemberContent.json Json.null⟩] ["f", "g"]
        = .ok [("f", Json.null)]
      ∧ "g" ∉ dictKeys [("f", Json.null)] :=
  ⟨rfl, (C6_selector [⟨"f", MemberContent.json Json.null⟩] ["f", "g"]
    [("f", Json.null)] rfl).2 "g" (by
      intro m hm
      have hm' : m = ⟨"f", MemberContent.json Json.null⟩ := by simpa using hm
      rw [hm']
      exact (by decide : ("f" : String) ≠ "g"))⟩

/-- C7: a requested member whose content is not valid JSON makes
`extract_workflow_data` fail with the JSON parse error, which is not caught
inside the selector and propagates to the caller. -/
theorem C7_invalid_json (members : List TarMember) (names : List String)
    (m : TarMember) (hm : m ∈ members) (hn : m.name ∈ names)
    (hc : m.content = MemberContent.invalid) :
    extract_workflow_data members names = .error .jsonDecodeError :=
  extract_go_invalid names members [] ⟨m, hm, hn, hc⟩

/-- Witness for C7 on a one-member archive with invalid JSON. -/
theorem C7_invalid_json_witness :
    (⟨"f", MemberContent.invalid⟩ : TarMember) ∈ [(⟨"f", MemberContent.invalid⟩ : TarMember)]
      ∧ extract_workflow_data [⟨"f", MemberContent.invalid⟩] ["f"]
          = .error .jsonDecodeError :=
  ⟨List.mem_singleton_self _, C7_invalid_json [⟨"f", MemberContent.invalid⟩] ["f"]
    ⟨"f", MemberContent.invalid⟩ (List.mem_singleton_self _)
    (by decide : ("f" : String) ∈ ["f"]) rfl⟩

/-- C8: `main` requests exactly the two hardcoded member names, its key lists
are verbatim the spec's fixed key lists (same strings, same order), and when
both members are found it applies `parse_json` with exactly those lists to
the respective trees and merges the two results. -/
theorem C8_fixed_keys (members : List TarMember) (ed : List (String × Json))
    (wl w : Json)
    (h : extract_workflow_data members main_file_names = .ok ed)
    (hwl : dictLookup ed "workflow-load.json" = some wl)
    (hw : dictLookup ed "workflow.json" = some w)
    (hwl0 : wl.isNull = false) (hw0 : w.isNull = false) :
    main_file_names = ["workflow-load.json", "workflow.json"]
    ∧ workflow_load_keys = specLoadKeys
    ∧ workflow_keys = specWorkflowKeys
    ∧ main_run members =
        (match parse_json wl workflow_load_keys with
          | .error e => .error e
          | .ok d1 =>
            match parse_json w workflow_keys with
            | .error e => .error e
            | .ok d2 => .ok (mergeDicts d1 d2)) := by
  refine ⟨rfl, rfl, rfl, ?_⟩
  simp [main_run, h, hwl, hw, hwl0, hw0]

/-- Witness for C8 on a two-member archive holding empty objects. -/
theorem C8_fixed_keys_witness :
    extract_workflow_data
        [⟨"workflow-load.json", MemberContent.json (Json.obj [])⟩,
         ⟨"workflow.json", MemberContent.json (Json.obj [])⟩] main_file_names
      = .ok [("workflow-load.json", Json.obj []), ("workflow.json", Json.obj [])]
    ∧ workflow_load_keys = specLoadKeys :=
  ⟨rfl, (C8_fixed_keys
    [⟨"workflow-load.json", MemberContent.json (Json.obj [])⟩,
     ⟨"workflow.json", MemberContent.json (Json.obj [])⟩]
    [("workflow-load.json", Json.obj []), ("workflow.json", Json.obj [])]
    (Json.obj []) (Json.obj []) rfl rfl rfl rfl rfl).2.1⟩

/-- C9: every key of a successful `parse_json` result is an element of the
requested key list — the extractor never introduces keys not requested. -/
theorem C9_keys_subset (T : Json) (K : List String) (d : List (String × Json))
    (h : parse_json T K = .ok d) :
    ∀ k, k ∈ dictKeys d → k ∈ K := by
  obtain ⟨_, hd⟩ := (parse_json_ok_iff T K d).1 h
  subst hd
  exact fun k hk => (buildDict_keys_sublist T K []).subset hk

/-- Witness for C9 at a concrete tree and key list. -/
theorem C9_keys_subset_witness :
    parse_json (Json.obj [("a", Json.num 1)]) ["a"] = .ok [("a", Json.num 1)]
      ∧ "a" ∈ (["a"] : List String) :=
  ⟨rfl, C9_keys_subset (Json.obj [("a", Json.num 1)]) ["a"] [("a", Json.num 1)]
    rfl "a" (by decide)⟩

/-- C10: if several archive members carry the same requested name, the
selection binds that name to the parsed content of the last such member in
archive enumeration order (later members overwrite earlier ones). -/
theorem C10_last_wins (members : List TarMember) (names : List String) (n : String)
    (m : TarMember) (j : Json) (ed : List (String × Json))
    (h : extract_workflow_data members names = .ok ed)
    (hn : n ∈ names) (hlast : lastNamed n members = some m)
    (hc : m.content = MemberContent.json j) :
    dictLookup ed n = some j := by
  have hlk := extract_go_lookup names members [] ed h n hn
  rw [hlast] at hlk
  rw [hlk]
  show contentJson m.content = some j
  rw [hc]
  rfl

/-- Witness for C10 on an archive with a duplicated member name. -/
theorem C10_last_wins_witness :
    extract_workflow_data
        [⟨"f", MemberContent.json (Json.num 1)⟩, ⟨"f", MemberContent.json (Json.num 2)⟩]
        ["f"] = .ok [("f", Json.num 2)]
      ∧ dictLookup [("f", Json.num 2)] "f" = some (Json.num 2) :=
  ⟨rfl, C10_last_wins
    [⟨"f", MemberContent.json (Json.num 1)⟩, ⟨"f", MemberContent.json (Json.num 2)⟩]
    ["f"] "f" ⟨"f", MemberContent.json (Json.num 2)⟩ (Json.num 2)
    [("f", Json.num 2)] rfl (by decide) rfl rfl⟩
